import Mathlib

/-!
Verification of the document segmentation and retrieval pipeline of the
3gpp-rag-assistant repository.  The definitions below are a shallow embedding
of `src/core/document_processor_UNIFIED.py` (text normalizer, chunker,
extraction dispatcher) and `src/core/retriever.py` (retrieval loop).
Strings are modelled as `List Char`; Python regular-expression substitutions
are modelled by dedicated matchers together with a generic leftmost,
non-overlapping global-substitution function.
-/

set_option maxRecDepth 10000

/-- Python `\s` on the ASCII range: space, tab, newline, carriage return,
vertical tab, form feed. -/
def isSpaceChar (c : Char) : Bool :=
  c = ' ' || c = '\t' || c = '\n' || c = '\r' || c.toNat = 11 || c.toNat = 12

/-- Python `\w` on the ASCII range: alphanumeric characters and underscore. -/
def isWordChar (c : Char) : Bool :=
  c.isAlphanum || c = '_'

/-- Length of the maximal prefix of `l` whose characters satisfy `p`
(the extent of a greedy `p*` / `p+` at the start of `l`). -/
def runLen (p : Char → Bool) : List Char → Nat
  | [] => 0
  | c :: cs => if p c then runLen p cs + 1 else 0

/-- Candidate consumption lengths for a greedy, backtracking `\s*`:
longest first. -/
def greedyCands (n : Nat) : List Nat :=
  (List.range (n + 1)).reverse

/-- Matcher for `\s+` at the head of the list (used by
`re.sub(r'\s+', ' ', text)`): returns the length of the maximal
whitespace run when it is non-empty. -/
def matchWsRun (l : List Char) : Option Nat :=
  match l with
  | c :: _ => if isSpaceChar c then some (runLen isSpaceChar l) else none
  | [] => none

/-- Matcher for `\n\s*\n\s*\n+` at the head of the list, with Python's
greedy backtracking semantics (used by
`re.sub(r'\n\s*\n\s*\n+', '\n\n', text)`).  Returns the length of the
match when one exists. -/
def matchTripleNewline : List Char → Option Nat
  | [] => none
  | c :: rest =>
    if c = '\n' then
      (greedyCands (runLen isSpaceChar rest)).findSome? (fun a =>
        match rest.drop a with
        | [] => none
        | c2 :: rest2 =>
          if c2 = '\n' then
            (greedyCands (runLen isSpaceChar rest2)).findSome? (fun b =>
              let rest3 := rest2.drop b
              let k := runLen (fun x => decide (x = '\n')) rest3
              if 1 ≤ k then some (1 + a + 1 + b + k) else none)
          else none)
    else none

/-- Matcher for `\n\d+\s+3GPP.*?\n` at the head of the list (used by
`re.sub(r'\n\d+\s+3GPP.*?\n', '\n', text)`).  `\d+` and `\s+` are greedy
(no shorter length can succeed because digits and whitespace are
disjoint from what follows), `.*?` is lazy and `.` does not match a
newline, so it consumes exactly the characters up to the next newline. -/
def matchBoilerplate : List Char → Option Nat
  | [] => none
  | c :: rest =>
    if c = '\n' then
      let d := runLen Char.isDigit rest
      if 1 ≤ d then
        let r1 := rest.drop d
        let s := runLen isSpaceChar r1
        if 1 ≤ s then
          match r1.drop s with
          | '3' :: 'G' :: 'P' :: 'P' :: r3 =>
            let t := runLen (fun x => decide (x ≠ '\n')) r3
            if (r3.drop t).isEmpty then none
            else some (1 + d + s + 4 + t + 1)
          | _ => none
        else none
      else none
    else none

/-- One pass of `re.sub(pattern, repl, text)`: scan left to right; at each
position either the matcher fires (consuming `n+1` characters, emitting
`repl`) or the character is copied.  The fuel argument dominates the
number of scan positions; `subAll` instantiates it with the list length,
which always suffices because every step consumes at least one
character. -/
def subAllFuel (m : List Char → Option Nat) (repl : List Char) :
    Nat → List Char → List Char
  | 0, l => l
  | _ + 1, [] => []
  | fuel + 1, c :: cs =>
    match m (c :: cs) with
    | some (n + 1) => repl ++ subAllFuel m repl fuel (cs.drop n)
    | _ => c :: subAllFuel m repl fuel cs

/-- Global regex substitution (leftmost, non-overlapping), as performed by
Python's `re.sub`. -/
def subAll (m : List Char → Option Nat) (repl : List Char) (l : List Char) :
    List Char :=
  subAllFuel m repl l.length l

/-- The character class kept by the fourth substitution of `clean_text`
(word characters, whitespace, and the punctuation set
`. , ; : ( ) [ ] - / newline # |`): everything else is deleted. -/
def allowedChar (c : Char) : Bool :=
  isWordChar c || isSpaceChar c ||
    c = '.' || c = ',' || c = ';' || c = ':' || c = '(' || c = ')' ||
    c = '[' || c = ']' || c = '-' || c = '/' || c = '\n' || c = '#' || c = '|'

/-- Python `str.strip()`: remove leading and trailing whitespace. -/
def pyStrip (l : List Char) : List Char :=
  ((l.dropWhile isSpaceChar).reverse.dropWhile isSpaceChar).reverse

/-- `UnifiedDocumentProcessor.clean_text`: the four `re.sub` passes followed
by `strip`, in source order. -/
def clean_text (text : List Char) : List Char :=
  let t1 := subAll matchWsRun [' '] text
  let t2 := subAll matchTripleNewline ['\n', '\n'] t1
  let t3 := subAll matchBoilerplate ['\n'] t2
  let t4 := t3.filter allowedChar
  pyStrip t4

/-! ### Claim C2: boilerplate-line removal -/

/-- A raw extracted text containing the boilerplate line
`5 3GPP TS 38.331 Radio` on its own line. -/
def c2Input : List Char :=
  ("Header\n5 3GPP TS 38.331 Radio\nBody text").toList

/-- C2 (code bug evidence): the boilerplate pattern of the third
substitution does match the raw line-structured text (at the newline
preceding the page-number/series-marker line), yet `clean_text` runs the
whitespace collapse first, destroying every newline, so the boilerplate
line survives (whitespace-collapsed) into the canonical output. -/
theorem c2_boilerplate_survives :
    (matchBoilerplate (c2Input.drop 6)).isSome = true ∧
    clean_text c2Input = ("Header 5 3GPP TS 38.331 Radio Body text").toList := by
  constructor
  · decide
  · decide

/-! ### Claim C4: idempotence of `clean_text` -/

/-- C4 counterexample: `clean_text` is not idempotent.  Deleting the
disallowed character `*` from `a * b` merges the two surrounding spaces
into a double space, which only collapses on a second pass. -/
theorem clean_text_not_idempotent :
    clean_text (clean_text (("a * b").toList)) ≠ clean_text (("a * b").toList) := by
  decide

/-! ### Chunker (`UnifiedDocumentProcessor.chunk_text`) -/

/-- Sentence terminators recognised by the chunker's snapping regex
`[.!?]\s+`. -/
def isSentencePunct (c : Char) : Bool :=
  c = '.' || c = '!' || c = '?'

/-- End positions (relative to the scanned string, offset by `pos`) of the
non-overlapping, left-to-right matches of `[.!?]\s+`, as produced by
`re.finditer`.  A match is a sentence terminator followed by a maximal
whitespace run; scanning resumes after the match.  The fuel argument
dominates the number of scan positions. -/
def sentenceEndingsAux : Nat → List Char → Nat → List Nat
  | 0, _, _ => []
  | _ + 1, [], _ => []
  | _ + 1, [_], _ => []
  | fuel + 1, c1 :: c2 :: rest, pos =>
    if isSentencePunct c1 && isSpaceChar c2 then
      let k := runLen isSpaceChar rest
      (pos + 2 + k) :: sentenceEndingsAux fuel (rest.drop k) (pos + 2 + k)
    else
      sentenceEndingsAux fuel (c2 :: rest) (pos + 1)

/-- `[m.end() for m in re.finditer(r'[.!?]\s+', search_text)]`. -/
def sentenceEndings (l : List Char) : List Nat :=
  sentenceEndingsAux l.length l 0

/-- Chunking configuration (immutable per processor instance). -/
structure ChunkCfg where
  size : Nat
  overlap : Nat
  minSize : Nat
deriving DecidableEq

/-- Python slice `text[a:b]` for `0 ≤ a ≤ b`. -/
def pySlice (l : List Char) (a b : Nat) : List Char :=
  (l.drop a).take (b - a)

/-- The snapped end candidate: the last sentence ending found in the
window `text[search_start : end+100]`, shifted back to an absolute
position (`end = search_start + sentence_endings[-1]`). -/
def snapCandidate (cfg : ChunkCfg) (text : List Char) (start : Nat) : Option Nat :=
  let e0 := start + cfg.size
  let searchStart := max start (e0 - 100)
  let searchText := (text.drop searchStart).take (e0 + 100 - searchStart)
  (sentenceEndings searchText).getLast?.map (searchStart + ·)

/-- The `end` value of one iteration of the chunking loop: the tentative
end `start + chunk_size`, snapped to the last sentence boundary in the
±100 window when this is not the final chunk and a boundary exists. -/
def computeEnd (cfg : ChunkCfg) (text : List Char) (start : Nat) : Nat :=
  if start + cfg.size < text.length then
    match snapCandidate cfg text start with
    | some e => e
    | none => start + cfg.size
  else start + cfg.size

/-- Whether sentence-boundary snapping was triggered at this iteration. -/
def snapTriggered (cfg : ChunkCfg) (text : List Char) (start : Nat) : Prop :=
  start + cfg.size < text.length ∧ (snapCandidate cfg text start).isSome

instance (cfg : ChunkCfg) (text : List Char) (start : Nat) :
    Decidable (snapTriggered cfg text start) := by
  unfold snapTriggered; infer_instance

/-- The next cursor value: `start = end - chunk_overlap`, clamped to `1`
when the new start would be `≤ 0`. -/
def nextStart (cfg : ChunkCfg) (text : List Char) (start : Nat) : Nat :=
  if computeEnd cfg text start ≤ cfg.overlap then 1
  else computeEnd cfg text start - cfg.overlap

/-- Per-chunk metadata: the `source` field copied from the document
metadata plus the fields added by `chunk_metadata.update`. -/
structure ChunkMeta where
  source : List Char
  chunk_index : Nat
  start_char : Nat
  end_char : Nat
  chunk_size : Nat
deriving DecidableEq

/-- A `DocumentChunk` record. -/
structure DocumentChunk where
  text : List Char
  metadata : ChunkMeta
  chunk_id : Nat
deriving DecidableEq

/-- The chunking `while` loop.  The Python loop is not structurally
terminating, so it is modelled with explicit fuel: `none` means the fuel
ran out with the loop still running (`start < len(text)`), `some chunks`
means the loop exited normally having emitted `chunks` in order. -/
def chunkLoopFuel (cfg : ChunkCfg) (source : List Char) (text : List Char) :
    Nat → Nat → Nat → Option (List DocumentChunk)
  | 0, start, _ =>
    if start < text.length then none else some []
  | fuel + 1, start, chunkId =>
    if start < text.length then
      let e := computeEnd cfg text start
      let ct := pyStrip (pySlice text start e)
      if cfg.minSize ≤ ct.length then
        (chunkLoopFuel cfg source text fuel (nextStart cfg text start) (chunkId + 1)).map
          (fun rest => ⟨ct, ⟨source, chunkId, start, e, ct.length⟩, chunkId⟩ :: rest)
      else
        chunkLoopFuel cfg source text fuel (nextStart cfg text start) chunkId
    else some []

/-- `UnifiedDocumentProcessor.chunk_text`: clean the text, then run the
chunking loop from `start = 0`. -/
def chunk_text (cfg : ChunkCfg) (source : List Char) (raw : List Char)
    (fuel : Nat) : Option (List DocumentChunk) :=
  chunkLoopFuel cfg source (clean_text raw) fuel 0 0

/-! ### Claim C1: termination of the chunking loop -/

/-- If an iteration maps a cursor value to itself, the loop never
terminates from there. -/
theorem chunkLoopFuel_stuck (cfg : ChunkCfg) (source text : List Char) (s : Nat)
    (h1 : s < text.length) (h2 : nextStart cfg text s = s) :
    ∀ fuel chunkId, chunkLoopFuel cfg source text fuel s chunkId = none := by
  intro fuel
  induction fuel with
  | zero => intro chunkId; simp [chunkLoopFuel, h1]
  | succ n ih =>
    intro chunkId
    rw [chunkLoopFuel]
    rw [if_pos h1]
    simp only [h2]
    split
    · rw [ih]; rfl
    · exact ih _

/-- If the cursor of one iteration has a non-terminating successor, the
loop does not terminate. -/
theorem chunkLoopFuel_none_step (cfg : ChunkCfg) (source text : List Char) (s : Nat)
    (h1 : s < text.length)
    (h2 : ∀ fuel chunkId,
      chunkLoopFuel cfg source text fuel (nextStart cfg text s) chunkId = none) :
    ∀ fuel chunkId, chunkLoopFuel cfg source text fuel s chunkId = none := by
  intro fuel chunkId
  cases fuel with
  | zero => simp [chunkLoopFuel, h1]
  | succ n =>
    rw [chunkLoopFuel]
    rw [if_pos h1]
    dsimp only
    split
    · rw [h2]; rfl
    · exact h2 _ _

/-- The configuration of the failing input: `chunk_size = 4 > 0` and
`chunk_overlap = 3 < 4`, i.e. a configuration the claim declares safe. -/
def c1Cfg : ChunkCfg := ⟨4, 3, 100⟩

/-- The failing input text (already in canonical form). -/
def c1Text : List Char := ("a. aaaa").toList

/-- C1 (code bug evidence): on the seven-character text `a. aaaa` with
`chunk_size = 4`, `chunk_overlap = 3 < chunk_size`, the chunking loop
never terminates: snapping pulls `end` back to 3 on every iteration, the
new start `3 - 3 = 0` trips the guard, and the loop revisits
`start = 1` forever.  `chunk_text` returns `none` for every fuel bound,
and `end` does not strictly exceed the previous `end` (it stays at 3). -/
theorem chunk_text_diverges :
    ∀ fuel, chunk_text c1Cfg (("doc.pdf").toList) c1Text fuel = none := by
  intro fuel
  have hclean : clean_text c1Text = c1Text := by decide
  have hstuck : ∀ f chunkId,
      chunkLoopFuel c1Cfg (("doc.pdf").toList) c1Text f 1 chunkId = none :=
    chunkLoopFuel_stuck _ _ _ _ (by decide) (by decide)
  unfold chunk_text
  rw [hclean]
  refine chunkLoopFuel_none_step _ _ _ _ (by decide) ?_ fuel 0
  intro f chunkId
  have h01 : nextStart c1Cfg c1Text 0 = 1 := by decide
  rw [h01]
  exact hstuck f chunkId

/-! ### Claim C5: overlap bookkeeping without snapping -/

/-- C5: when sentence-boundary snapping is not triggered at an iteration
and `chunk_overlap < chunk_size`, the iteration's `end` (recorded as
`end_char` of the chunk emitted there) exceeds the next iteration's
`start` (recorded as `start_char` of the chunk emitted there) by exactly
`chunk_overlap`. -/
theorem no_snap_overlap (cfg : ChunkCfg) (text : List Char) (start : Nat)
    (hov : cfg.overlap < cfg.size) (hns : ¬ snapTriggered cfg text start) :
    computeEnd cfg text start = nextStart cfg text start + cfg.overlap ∧
    computeEnd cfg text start - nextStart cfg text start = cfg.overlap := by
  have he : computeEnd cfg text start = start + cfg.size := by
    unfold computeEnd
    by_cases h : start + cfg.size < text.length
    · rw [if_pos h]
      have hsc : snapCandidate cfg text start = none := by
        cases hsc : snapCandidate cfg text start with
        | none => rfl
        | some e =>
          exact absurd ⟨h, by rw [hsc]; rfl⟩ hns
      rw [hsc]
    · rw [if_neg h]
  have hnoclamp : ¬ computeEnd cfg text start ≤ cfg.overlap := by omega
  have hnext : nextStart cfg text start = computeEnd cfg text start - cfg.overlap := by
    unfold nextStart
    rw [if_neg hnoclamp]
  constructor <;> omega

/-- Witness for C5 at a concrete input: the second chunk of the test
scenario (start 24, end 44, next start 39, overlap 5). -/
theorem no_snap_overlap_witness :
    (⟨20, 5, 3⟩ : ChunkCfg).overlap < (⟨20, 5, 3⟩ : ChunkCfg).size ∧
    ¬ snapTriggered ⟨20, 5, 3⟩ (("Hello there. This is a test. Goodbye friend.").toList) 24 ∧
    computeEnd ⟨20, 5, 3⟩ (("Hello there. This is a test. Goodbye friend.").toList) 24 =
      nextStart ⟨20, 5, 3⟩ (("Hello there. This is a test. Goodbye friend.").toList) 24 + 5 :=
  ⟨by decide, by decide,
    (no_snap_overlap ⟨20, 5, 3⟩ (("Hello there. This is a test. Goodbye friend.").toList) 24
      (by decide) (by decide)).1⟩

/-! ### Retriever (`DocumentRetriever.retrieve`) -/

/-- One candidate returned by the Index Port's `query`: document text,
its metadata (`source`, `chunk_index`), and its distance. -/
structure Candidate where
  text : List Char
  source : List Char
  chunk_index : Nat
  distance : ℚ
deriving DecidableEq

/-- A `RetrievedDocument` produced by the retriever. -/
structure RetrievedDoc where
  text : List Char
  source : List Char
  chunk_index : Nat
  similarity : ℚ
deriving DecidableEq

/-- Python's `needle in hay` contiguous-substring test. -/
def listContains (hay needle : List Char) : Bool :=
  (List.range (hay.length + 1)).any (fun i => needle.isPrefixOf (hay.drop i))

/-- Truthiness of the optional source filter: `None` and the empty string
are falsy. -/
def sfTruthy : Option (List Char) → Bool
  | none => false
  | some s => !s.isEmpty

/-- `k = top_k or self.top_k`: a falsy per-call argument (`None` or `0`)
falls back to the constructor default. -/
def effectiveTopK : Option Nat → Nat → Nat
  | none, d => d
  | some 0, d => d
  | some (n + 1), _ => n + 1

/-- `n_results = top_k * 2 if source_filter else top_k` requested from the
Index Port. -/
def nResultsRequested (topK : Option Nat) (selfTopK : Nat)
    (sf : Option (List Char)) : Nat :=
  if sfTruthy sf then effectiveTopK topK selfTopK * 2
  else effectiveTopK topK selfTopK

/-- Formatting of one accepted candidate:
`{'text': doc, 'source': ..., 'chunk_index': ..., 'similarity': 1 - distance}`. -/
def mkRetrievedDoc (c : Candidate) : RetrievedDoc :=
  ⟨c.text, c.source, c.chunk_index, 1 - c.distance⟩

/-- The result-formatting loop of `retrieve`: walk the candidates in the
Index Port's order, skip those failing the source filter, append the
rest, and break once `len(retrieved_docs) >= k` (checked after each
append). -/
def retrieveLoop (k : Nat) (sf : Option (List Char)) :
    List Candidate → Nat → List RetrievedDoc
  | [], _ => []
  | c :: cs, count =>
    if sfTruthy sf && !(listContains c.source (sf.getD [])) then
      retrieveLoop k sf cs count
    else if k ≤ count + 1 then [mkRetrievedDoc c]
    else mkRetrievedDoc c :: retrieveLoop k sf cs (count + 1)

/-- `DocumentRetriever.retrieve`, as a function of the Index Port's query
results. -/
def retrieve (cands : List Candidate) (topK : Option Nat) (selfTopK : Nat)
    (sf : Option (List Char)) : List RetrievedDoc :=
  retrieveLoop (effectiveTopK topK selfTopK) sf cands 0

/-- The retrieval loop emits the formatted images of an order-preserving
subsequence of the candidate list. -/
theorem retrieveLoop_sublist (k : Nat) (sf : Option (List Char)) :
    ∀ (cands : List Candidate) (count : Nat),
      ∃ sub : List Candidate, sub.Sublist cands ∧
        retrieveLoop k sf cands count = sub.map mkRetrievedDoc := by
  intro cands
  induction cands with
  | nil => exact fun count => ⟨[], List.Sublist.refl [], rfl⟩
  | cons c cs ih =>
    intro count
    rw [retrieveLoop]
    split
    · obtain ⟨sub, hs, he⟩ := ih count
      exact ⟨sub, hs.cons c, he⟩
    · split
      · exact ⟨[c], (List.nil_sublist cs).cons₂ c, rfl⟩
      · obtain ⟨sub, hs, he⟩ := ih (count + 1)
        exact ⟨c :: sub, hs.cons₂ c, by rw [he]; rfl⟩

/-! ### Claim C6: similarity conversion and ordering -/

/-- C6: assuming the Index Port returns candidates in ascending-distance
order, every document returned by `retrieve` is the formatted image
(`similarity = 1 - distance`) of one of the candidates, and the
similarity values of the returned list are non-increasing in list order
(no re-sorting happens after filtering). -/
theorem retrieve_similarity_ordered (cands : List Candidate) (topK : Option Nat)
    (selfTopK : Nat) (sf : Option (List Char))
    (hsort : cands.Pairwise (fun a b => a.distance ≤ b.distance)) :
    (∀ d ∈ retrieve cands topK selfTopK sf, ∃ c ∈ cands, d = mkRetrievedDoc c) ∧
    (retrieve cands topK selfTopK sf).Pairwise
      (fun a b => b.similarity ≤ a.similarity) := by
  obtain ⟨sub, hs, he⟩ :=
    retrieveLoop_sublist (effectiveTopK topK selfTopK) sf cands 0
  unfold retrieve
  rw [he]
  constructor
  · intro d hd
    obtain ⟨c, hc, rfl⟩ := List.mem_map.mp hd
    exact ⟨c, hs.subset hc, rfl⟩
  · have hsub : sub.Pairwise (fun a b => a.distance ≤ b.distance) :=
      hsort.sublist hs
    rw [List.pairwise_map]
    refine hsub.imp ?_
    intro a b hab
    show (mkRetrievedDoc b).similarity ≤ (mkRetrievedDoc a).similarity
    unfold mkRetrievedDoc
    dsimp only
    linarith

/-- Witness for C6 at a concrete candidate list. -/
theorem retrieve_similarity_ordered_witness :
    ([⟨("t1").toList, ("specA.pdf").toList, 0, 1/10⟩,
      ⟨("t2").toList, ("specB.pdf").toList, 1, 1/2⟩] :
        List Candidate).Pairwise (fun a b => a.distance ≤ b.distance) ∧
    (retrieve [⟨("t1").toList, ("specA.pdf").toList, 0, 1/10⟩,
      ⟨("t2").toList, ("specB.pdf").toList, 1, 1/2⟩] none 5 none).Pairwise
        (fun a b => b.similarity ≤ a.similarity) :=
  ⟨by simp [List.pairwise_cons]; norm_num,
    (retrieve_similarity_ordered _ none 5 none
      (by simp [List.pairwise_cons]; norm_num)).2⟩

/-! ### Claim C7: source filtering under the result budget -/

/-- Every document kept by the loop under an active source filter passed
the substring test. -/
theorem retrieveLoop_filter_mem (k : Nat) (s : List Char)
    (htruthy : sfTruthy (some s) = true) :
    ∀ (cands : List Candidate) (count : Nat),
      ∀ d ∈ retrieveLoop k (some s) cands count, listContains d.source s = true := by
  intro cands
  induction cands with
  | nil => intro count d hd; simp [retrieveLoop] at hd
  | cons c cs ih =>
    intro count d hd
    rw [retrieveLoop] at hd
    by_cases hskip : sfTruthy (some s) && !(listContains c.source ((some s).getD []))
    · rw [if_pos hskip] at hd
      exact ih count d hd
    · rw [if_neg hskip] at hd
      have hcontains : listContains c.source s = true := by
        rw [Bool.and_eq_true, Bool.not_eq_true'] at hskip
        push_neg at hskip
        simpa using hskip htruthy
      split at hd
      · rw [List.mem_singleton] at hd
        subst hd
        exact hcontains
      · rcases List.mem_cons.mp hd with h | h
        · subst h; exact hcontains
        · exact ih (count + 1) d h

/-- `listContains hay needle = true` exposes a substring decomposition. -/
theorem listContains_spec (hay needle : List Char)
    (h : listContains hay needle = true) :
    ∃ u v, hay = u ++ needle ++ v := by
  unfold listContains at h
  rw [List.any_eq_true] at h
  obtain ⟨i, _, hp⟩ := h
  rw [List.isPrefixOf_iff_prefix] at hp
  obtain ⟨v, hv⟩ := hp
  refine ⟨hay.take i, v, ?_⟩
  rw [List.append_assoc, hv, List.take_append_drop]

/-- The loop never accumulates more than its remaining budget. -/
theorem retrieveLoop_length (k : Nat) (sf : Option (List Char)) :
    ∀ (cands : List Candidate) (count : Nat), count < k →
      (retrieveLoop k sf cands count).length ≤ k - count := by
  intro cands
  induction cands with
  | nil => intro count h; simp [retrieveLoop]
  | cons c cs ih =>
    intro count h
    rw [retrieveLoop]
    split
    · exact ih count h
    · split
      · simpa using by omega
      · rename_i hlt
        have h2 : count + 1 < k := by omega
        have := ih (count + 1) h2
        simp only [List.length_cons]
        omega

/-- C7: under a non-empty source filter `s`, and the Index Port honouring
its contract of returning at most the `n_results = 2 * top_k` requested
candidates, every returned document's `source` contains `s` as a
contiguous substring, the returned list is an order-preserving
subsequence of the candidates (tested in the Index Port's order), and at
most `top_k` results are returned. -/
theorem retrieve_source_filter (cands : List Candidate) (topK : Option Nat)
    (selfTopK : Nat) (s : List Char) (hs : s ≠ [])
    (hn : cands.length ≤ nResultsRequested topK selfTopK (some s)) :
    (∀ d ∈ retrieve cands topK selfTopK (some s),
        ∃ u v, d.source = u ++ s ++ v) ∧
    (retrieve cands topK selfTopK (some s)).length ≤ effectiveTopK topK selfTopK ∧
    (∃ sub : List Candidate, sub.Sublist cands ∧
        retrieve cands topK selfTopK (some s) = sub.map mkRetrievedDoc) := by
  have htruthy : sfTruthy (some s) = true := by
    simp [sfTruthy, hs]
  refine ⟨?_, ?_, ?_⟩
  · intro d hd
    exact listContains_spec d.source s
      (retrieveLoop_filter_mem _ s htruthy cands 0 d hd)
  · rcases Nat.eq_zero_or_pos (effectiveTopK topK selfTopK) with hk | hk
    · have hzero : nResultsRequested topK selfTopK (some s) = 0 := by
        unfold nResultsRequested
        rw [htruthy]
        simp [hk]
      have hc : cands = [] := List.length_eq_zero.mp (by omega)
      subst hc
      simp [retrieve, retrieveLoop]
    · have hb := retrieveLoop_length (effectiveTopK topK selfTopK) (some s) cands 0 hk
      unfold retrieve
      omega
  · exact retrieveLoop_sublist _ _ cands 0

/-- Witness for C7 at a concrete candidate list and filter. -/
theorem retrieve_source_filter_witness :
    ("specA").toList ≠ ([] : List Char) ∧
    ([⟨("t1").toList, ("specA.pdf").toList, 0, 1/10⟩,
      ⟨("t2").toList, ("specB.pdf").toList, 1, 1/2⟩] : List Candidate).length ≤
        nResultsRequested (some 1) 5 (some (("specA").toList)) ∧
    (retrieve [⟨("t1").toList, ("specA.pdf").toList, 0, 1/10⟩,
      ⟨("t2").toList, ("specB.pdf").toList, 1, 1/2⟩] (some 1) 5
        (some (("specA").toList))).length ≤ effectiveTopK (some 1) 5 :=
  ⟨by decide, by decide,
    (retrieve_source_filter _ (some 1) 5 _ (by decide) (by decide)).2.1⟩

/-! ### Claim C10: `top_k = 0` falls back to the default -/

/-- C10: because `k = top_k or self.top_k` treats `0` as falsy, a per-call
`top_k = 0` silently behaves exactly like `top_k = None`: the effective
budget is the constructor default, so zero results cannot be requested
per call. -/
theorem top_k_zero_falls_back (selfTopK : Nat) :
    effectiveTopK (some 0) selfTopK = selfTopK ∧
    effectiveTopK (some 0) selfTopK = effectiveTopK none selfTopK ∧
    ∀ (cands : List Candidate) (sf : Option (List Char)),
      retrieve cands (some 0) selfTopK sf = retrieve cands none selfTopK sf :=
  ⟨rfl, rfl, fun _ _ => rfl⟩

/-! ### Extraction dispatcher (`UnifiedDocumentProcessor.load_document`) -/

/-- The `.doc` extraction backends, in the preference order used by both
`_detect_processors` (construction-time probing) and `_load_doc`. -/
inductive DocBackend where
  | antiword
  | textract
  | win32com
deriving DecidableEq

/-- The availability information recorded by `_detect_processors`. -/
structure Processors where
  pdf : Bool
  docx : Bool
  docMethods : List DocBackend
deriving DecidableEq

/-- `processors['doc'] = len(doc_methods) > 0`. -/
def Processors.doc (p : Processors) : Bool :=
  !p.docMethods.isEmpty

/-- `_detect_processors`'s `doc_methods` list: probes run in the fixed
order antiword, textract, win32com (the last only on the win32
platform), appending each available backend. -/
def detect_doc_methods (antiwordOk textractOk win32Platform win32comOk : Bool) :
    List DocBackend :=
  (if antiwordOk then [DocBackend.antiword] else []) ++
  (if textractOk then [DocBackend.textract] else []) ++
  (if win32Platform && win32comOk then [DocBackend.win32com] else [])

/-- A supported document format. -/
inductive DocFormat where
  | pdf
  | docx
  | doc
deriving DecidableEq

/-- What `load_document` does before any extraction backend runs:
either it raises (`FileNotFoundError`, `ValueError` for an unsupported
extension, `RuntimeError` when the format is recognized but no backend
was detected) or it dispatches to the format's loader. -/
inductive LoadResult where
  | notFound
  | unsupported
  | backendUnavailable (fmt : DocFormat)
  | dispatch (fmt : DocFormat)
deriving DecidableEq

/-- ASCII lower-casing of one character (Python `str.lower()` on the
extensions involved). -/
def toLowerChar (c : Char) : Char :=
  if 'A' ≤ c ∧ c ≤ 'Z' then Char.ofNat (c.toNat + 32) else c

/-- The path information `load_document` inspects: existence and the
`Path.suffix` (extension including the dot). -/
structure PathInfo where
  exists_ : Bool
  suffix : List Char
deriving DecidableEq

/-- The `.pdf` extension. -/
def pdfExtension : List Char := (".pdf").toList

/-- The `.docx` extension. -/
def docxExtension : List Char := (".docx").toList

/-- The `.doc` extension. -/
def docExtension : List Char := (".doc").toList

/-- `UnifiedDocumentProcessor.load_document` up to the invocation of the
format-specific loader: existence check, case-insensitive extension
dispatch, availability check. -/
def load_document (procs : Processors) (p : PathInfo) : LoadResult :=
  if !p.exists_ then .notFound
  else
    let ext := p.suffix.map toLowerChar
    if ext = pdfExtension then
      if !procs.pdf then .backendUnavailable .pdf else .dispatch .pdf
    else if ext = docxExtension then
      if !procs.docx then .backendUnavailable .docx else .dispatch .docx
    else if ext = docExtension then
      if !procs.doc then .backendUnavailable .doc else .dispatch .doc
    else .unsupported

/-! ### Claim C8: `load_document` failure taxonomy -/

/-- C8: `load_document` fails with `FileNotFoundError` exactly when the
path does not exist; given an existing path, it fails with `ValueError`
(unsupported format) exactly when the lower-cased extension is none of
`.pdf`, `.docx`, `.doc`; and for each recognized format whose backend
was not detected at startup it fails with `RuntimeError` (backend
unavailable) instead of dispatching to a loader. -/
theorem load_document_error_taxonomy (procs : Processors) (p : PathInfo) :
    (load_document procs p = .notFound ↔ p.exists_ = false) ∧
    (p.exists_ = true →
      (load_document procs p = .unsupported ↔
        ¬ (p.suffix.map toLowerChar = pdfExtension ∨
           p.suffix.map toLowerChar = docxExtension ∨
           p.suffix.map toLowerChar = docExtension))) ∧
    (p.exists_ = true → p.suffix.map toLowerChar = pdfExtension →
      procs.pdf = false → load_document procs p = .backendUnavailable .pdf) ∧
    (p.exists_ = true → p.suffix.map toLowerChar = docxExtension →
      procs.docx = false → load_document procs p = .backendUnavailable .docx) ∧
    (p.exists_ = true → p.suffix.map toLowerChar = docExtension →
      procs.docMethods = [] → load_document procs p = .backendUnavailable .doc) := by
  have d1 : pdfExtension ≠ docxExtension := by decide
  have d2 : pdfExtension ≠ docExtension := by decide
  have d3 : docxExtension ≠ pdfExtension := by decide
  have d4 : docxExtension ≠ docExtension := by decide
  have d5 : docExtension ≠ pdfExtension := by decide
  have d6 : docExtension ≠ docxExtension := by decide
  unfold load_document Processors.doc
  cases hex : p.exists_
  · simp
  · by_cases h1 : p.suffix.map toLowerChar = pdfExtension
    · cases hpdf : procs.pdf <;> simp_all
    · by_cases h2 : p.suffix.map toLowerChar = docxExtension
      · cases hdocx : procs.docx <;> simp_all
      · by_cases h3 : p.suffix.map toLowerChar = docExtension
        · cases hdm : procs.docMethods <;> simp_all
        · simp_all

/-- Witness for C8 at a concrete path: an existing `.PDF` file with no
PDF backend detected. -/
theorem load_document_error_taxonomy_witness :
    ((⟨true, (".PDF").toList⟩ : PathInfo).suffix.map toLowerChar = pdfExtension) ∧
    load_document ⟨false, true, []⟩ ⟨true, (".PDF").toList⟩ =
      .backendUnavailable .pdf :=
  ⟨by decide,
    (load_document_error_taxonomy ⟨false, true, []⟩ ⟨true, (".PDF").toList⟩).2.2.1
      rfl (by decide) rfl⟩

/-! ### Claim C9: `.doc` backend selection and failure propagation -/

/-- The backend `_load_doc` will invoke, given the detected methods:
the `if 'antiword' in ... elif 'textract' in ... elif 'win32com' in ...`
chain. -/
def selectDocBackend (methods : List DocBackend) : Option DocBackend :=
  if DocBackend.antiword ∈ methods then some .antiword
  else if DocBackend.textract ∈ methods then some .textract
  else if DocBackend.win32com ∈ methods then some .win32com
  else none

/-- A successful `.doc` extraction: the text and the backend used
(recorded in the metadata as `extraction_method`). -/
structure DocExtraction where
  text : List Char
  method : DocBackend
deriving DecidableEq

/-- The observable outcome of `_load_doc`: success, an exception raised
by the invoked backend propagating out of the call, or the
`RuntimeError` raised when no backend is available. -/
inductive DocLoadResult where
  | ok (r : DocExtraction)
  | backendFailed (b : DocBackend) (msg : List Char)
  | noBackend
deriving DecidableEq

/-- `UnifiedDocumentProcessor._load_doc`: invoke the first available
backend in the fixed preference order; a backend failure propagates
immediately (`subprocess.run(..., check=True)` raising, `textract`
throwing, ...) without consulting any later backend. -/
def load_doc (methods : List DocBackend)
    (run : DocBackend → Except (List Char) (List Char)) : DocLoadResult :=
  if DocBackend.antiword ∈ methods then
    match run .antiword with
    | .ok t => .ok ⟨t, .antiword⟩
    | .error e => .backendFailed .antiword e
  else if DocBackend.textract ∈ methods then
    match run .textract with
    | .ok t => .ok ⟨t, .textract⟩
    | .error e => .backendFailed .textract e
  else if DocBackend.win32com ∈ methods then
    match run .win32com with
    | .ok t => .ok ⟨t, .win32com⟩
    | .error e => .backendFailed .win32com e
  else .noBackend

/-- C9: backend selection for legacy `.doc` files follows the fixed
preference order antiword, then textract, then win32com over the
methods detected at construction time; only the selected backend is
ever invoked (the result is insensitive to the behaviour of all other
backends); and when the selected backend fails, the error propagates
immediately carrying that backend, with no retry of the remaining
backends. -/
theorem load_doc_backend_selection (methods : List DocBackend)
    (run : DocBackend → Except (List Char) (List Char)) :
    (DocBackend.antiword ∈ methods →
      selectDocBackend methods = some .antiword) ∧
    (DocBackend.antiword ∉ methods → DocBackend.textract ∈ methods →
      selectDocBackend methods = some .textract) ∧
    (DocBackend.antiword ∉ methods → DocBackend.textract ∉ methods →
      DocBackend.win32com ∈ methods →
      selectDocBackend methods = some .win32com) ∧
    (DocBackend.antiword ∉ methods → DocBackend.textract ∉ methods →
      DocBackend.win32com ∉ methods → load_doc methods run = .noBackend) ∧
    (∀ a t w32 ok, selectDocBackend (detect_doc_methods a t w32 ok) =
      if a then some .antiword
      else if t then some .textract
      else if w32 && ok then some .win32com
      else none) ∧
    (∀ b e, selectDocBackend methods = some b → run b = .error e →
      load_doc methods run = .backendFailed b e) ∧
    (∀ run₂, (∀ b, selectDocBackend methods = some b → run b = run₂ b) →
      load_doc methods run = load_doc methods run₂) := by
  refine ⟨?_, ?_, ?_, ?_, ?_, ?_, ?_⟩
  · intro h; simp [selectDocBackend, h]
  · intro h1 h2; simp [selectDocBackend, h1, h2]
  · intro h1 h2 h3; simp [selectDocBackend, h1, h2, h3]
  · intro h1 h2 h3; simp [load_doc, h1, h2, h3]
  · intro a t w32 ok
    cases a <;> cases t <;> cases w32 <;> cases ok <;> decide
  · intro b e hsel hrun
    unfold selectDocBackend at hsel
    unfold load_doc
    by_cases h1 : DocBackend.antiword ∈ methods
    · rw [if_pos h1] at hsel ⊢
      obtain rfl : b = .antiword := by
        cases hsel; rfl
      rw [hrun]
    · rw [if_neg h1] at hsel ⊢
      by_cases h2 : DocBackend.textract ∈ methods
      · rw [if_pos h2] at hsel ⊢
        obtain rfl : b = .textract := by
          cases hsel; rfl
        rw [hrun]
      · rw [if_neg h2] at hsel ⊢
        by_cases h3 : DocBackend.win32com ∈ methods
        · rw [if_pos h3] at hsel ⊢
          obtain rfl : b = .win32com := by
            cases hsel; rfl
          rw [hrun]
        · rw [if_neg h3] at hsel
          exact Option.noConfusion hsel
  · intro run₂ hagree
    unfold load_doc
    by_cases h1 : DocBackend.antiword ∈ methods
    · simp only [if_pos h1]
      rw [hagree .antiword (by simp [selectDocBackend, h1])]
    · simp only [if_neg h1]
      by_cases h2 : DocBackend.textract ∈ methods
      · simp only [if_pos h2]
        rw [hagree .textract (by simp [selectDocBackend, h1, h2])]
      · simp only [if_neg h2]
        by_cases h3 : DocBackend.win32com ∈ methods
        · simp only [if_pos h3]
          rw [hagree .win32com (by simp [selectDocBackend, h1, h2, h3])]
        · simp only [if_neg h3]

/-- Witness for C9: with only textract detected and a failing run, the
failure propagates carrying the textract backend. -/
theorem load_doc_backend_selection_witness :
    DocBackend.antiword ∉ ([DocBackend.textract] : List DocBackend) ∧
    selectDocBackend [DocBackend.textract] = some DocBackend.textract ∧
    load_doc [DocBackend.textract]
        (fun _ => Except.error (("boom").toList)) =
      .backendFailed .textract (("boom").toList) :=
  ⟨by decide, by decide,
    (load_doc_backend_selection [DocBackend.textract]
        (fun _ => Except.error (("boom").toList))).2.2.2.2.2.1
      DocBackend.textract (("boom").toList) (by decide) rfl⟩

/-! ### Claim C4 (amended): `clean_text` is idempotent on allow-listed input -/

/-- Every whitespace character of `l` is the plain space. -/
def spacesArePlain (l : List Char) : Prop :=
  ∀ c ∈ l, isSpaceChar c = true → c = ' '

/-- No two adjacent whitespace characters in `l`. -/
def noAdjacentSpaces (l : List Char) : Prop :=
  List.Chain' (fun a b => ¬(isSpaceChar a = true ∧ isSpaceChar b = true)) l

theorem runLen_le_length (p : Char → Bool) : ∀ l : List Char, runLen p l ≤ l.length := by
  intro l
  induction l with
  | nil => simp [runLen]
  | cons a as ih =>
    rw [runLen]
    split
    · simp
      omega
    · simp

theorem head_drop_runLen (p : Char → Bool) :
    ∀ (l : List Char) (c : Char), (l.drop (runLen p l)).head? = some c → p c = false := by
  intro l
  induction l with
  | nil => intro c hc; simp at hc
  | cons a as ih =>
    intro c hc
    rw [runLen] at hc
    by_cases hp : p a
    · rw [if_pos hp] at hc
      rw [List.drop_succ_cons] at hc
      exact ih c hc
    · rw [if_neg hp] at hc
      simp at hc
      rw [← hc]
      exact Bool.eq_false_iff.mpr hp

theorem subAllFuel_nil (m : List Char → Option Nat) (repl : List Char) :
    ∀ fuel, subAllFuel m repl fuel [] = [] := by
  intro fuel
  cases fuel <;> rfl

/-- The whitespace-collapse matcher on a whitespace head. -/
theorem matchWsRun_cons_space (a : Char) (cs : List Char) (ha : isSpaceChar a = true) :
    matchWsRun (a :: cs) = some (runLen isSpaceChar cs + 1) := by
  rw [matchWsRun, if_pos ha, runLen, if_pos ha]

theorem matchWsRun_cons_nonspace (a : Char) (cs : List Char) (ha : isSpaceChar a = false) :
    matchWsRun (a :: cs) = none := by
  rw [matchWsRun, if_neg (by simp [ha])]

/-- Characters of the collapse output: each is either the plain space
emitted for a run, or a non-whitespace character of the input. -/
theorem subAll_ws_chars : ∀ (fuel : Nat) (l : List Char), l.length ≤ fuel →
    ∀ c ∈ subAllFuel matchWsRun [' '] fuel l,
      c = ' ' ∨ (isSpaceChar c = false ∧ c ∈ l) := by
  intro fuel
  induction fuel with
  | zero =>
    intro l hl c hc
    have : l = [] := List.length_eq_zero.mp (Nat.le_zero.mp hl)
    subst this
    simp [subAllFuel] at hc
  | succ n ih =>
    intro l hl c hc
    match l with
    | [] => simp [subAllFuel] at hc
    | a :: cs =>
      rw [subAllFuel] at hc
      by_cases ha : isSpaceChar a
      · rw [matchWsRun_cons_space a cs ha] at hc
        simp only [List.cons_append, List.nil_append] at hc
        rcases List.mem_cons.mp hc with h | h
        · exact Or.inl h
        · have hlen : (cs.drop (runLen isSpaceChar cs)).length ≤ n := by
            rw [List.length_drop]
            have := List.length_cons a cs ▸ hl
            omega
          rcases ih _ hlen c h with h' | ⟨h1, h2⟩
          · exact Or.inl h'
          · exact Or.inr ⟨h1, List.mem_cons_of_mem a (List.drop_subset _ _ h2)⟩
      · rw [matchWsRun_cons_nonspace a cs (Bool.eq_false_iff.mpr ha)] at hc
        rcases List.mem_cons.mp hc with h | h
        · rw [h]
          exact Or.inr ⟨Bool.eq_false_iff.mpr ha, List.mem_cons_self a cs⟩
        · have hlen : cs.length ≤ n := by
            have := List.length_cons a cs ▸ hl
            omega
          rcases ih cs hlen c h with h' | ⟨h1, h2⟩
          · exact Or.inl h'
          · exact Or.inr ⟨h1, List.mem_cons_of_mem a h2⟩

/-- The collapse output keeps a non-whitespace head. -/
theorem subAll_ws_head_nonspace :
    ∀ (fuel : Nat) (a : Char) (cs : List Char), isSpaceChar a = false →
      (subAllFuel matchWsRun [' '] fuel (a :: cs)).head? = some a := by
  intro fuel a cs ha
  cases fuel with
  | zero => rfl
  | succ n =>
    rw [subAllFuel, matchWsRun_cons_nonspace a cs ha]
    rfl

/-- The collapse output never has two adjacent whitespace characters. -/
theorem subAll_ws_noAdjacent : ∀ (fuel : Nat) (l : List Char), l.length ≤ fuel →
    noAdjacentSpaces (subAllFuel matchWsRun [' '] fuel l) := by
  intro fuel
  induction fuel with
  | zero =>
    intro l hl
    have : l = [] := List.length_eq_zero.mp (Nat.le_zero.mp hl)
    subst this
    simp [subAllFuel, noAdjacentSpaces]
  | succ n ih =>
    intro l hl
    match l with
    | [] => simp [subAllFuel, noAdjacentSpaces]
    | a :: cs =>
      rw [subAllFuel]
      by_cases ha : isSpaceChar a
      · rw [matchWsRun_cons_space a cs ha]
        simp only [List.cons_append, List.nil_append]
        have hlen : (cs.drop (runLen isSpaceChar cs)).length ≤ n := by
          rw [List.length_drop]
          have := List.length_cons a cs ▸ hl
          omega
        rw [noAdjacentSpaces, List.chain'_cons']
        refine ⟨?_, ih _ hlen⟩
        intro b hb
        cases hdrop : cs.drop (runLen isSpaceChar cs) with
        | nil =>
          rw [hdrop, subAllFuel_nil] at hb
          simp at hb
        | cons d ds =>
          have hd : isSpaceChar d = false :=
            head_drop_runLen isSpaceChar cs d (by rw [hdrop]; rfl)
          rw [hdrop, subAll_ws_head_nonspace n d ds hd] at hb
          have hbd : d = b := by simpa using hb
          rw [← hbd]
          simp [hd]
      · rw [matchWsRun_cons_nonspace a cs (Bool.eq_false_iff.mpr ha)]
        have hlen : cs.length ≤ n := by
          have := List.length_cons a cs ▸ hl
          omega
        rw [noAdjacentSpaces, List.chain'_cons']
        refine ⟨?_, ih _ hlen⟩
        intro b hb
        have hbmem : b ∈ subAllFuel matchWsRun [' '] n cs :=
          List.mem_of_mem_head? hb
        intro hcontra
        exact absurd hcontra.1 ha

/-- Collapsing is the identity on strings whose whitespace is a set of
isolated plain spaces. -/
theorem subAll_ws_id : ∀ (fuel : Nat) (l : List Char), l.length ≤ fuel →
    spacesArePlain l → noAdjacentSpaces l →
    subAllFuel matchWsRun [' '] fuel l = l := by
  intro fuel
  induction fuel with
  | zero =>
    intro l hl _ _
    have : l = [] := List.length_eq_zero.mp (Nat.le_zero.mp hl)
    subst this
    rfl
  | succ n ih =>
    intro l hl hplain hadj
    match l with
    | [] => rfl
    | a :: cs =>
      have hlen : cs.length ≤ n := by
        have := List.length_cons a cs ▸ hl
        omega
      have htail : noAdjacentSpaces cs := (List.chain'_cons'.mp hadj).2
      have hplaintail : spacesArePlain cs := fun c hc => hplain c (List.mem_cons_of_mem a hc)
      rw [subAllFuel]
      by_cases ha : isSpaceChar a
      · have haplain : a = ' ' := hplain a (List.mem_cons_self a cs) ha
        have hrun0 : runLen isSpaceChar cs = 0 := by
          cases cs with
          | nil => rfl
          | cons d ds =>
            have hnd : ¬ (isSpaceChar a = true ∧ isSpaceChar d = true) := by
              have := (List.chain'_cons'.mp hadj).1 d (by rfl)
              exact this
            have : isSpaceChar d = false := by
              rcases Bool.eq_false_or_eq_true (isSpaceChar d) with h | h
              · exact absurd ⟨ha, h⟩ hnd
              · exact h
            rw [runLen, this]
            rfl
        rw [matchWsRun_cons_space a cs ha, hrun0]
        simp only [List.cons_append, List.nil_append, List.drop_zero]
        rw [ih cs hlen hplaintail htail, haplain]
      · rw [matchWsRun_cons_nonspace a cs (Bool.eq_false_iff.mpr ha)]
        rw [ih cs hlen hplaintail htail]

/-- `pyStrip` returns a contiguous fragment of its input. -/
theorem pyStrip_infix (l : List Char) : pyStrip l <:+: l := by
  unfold pyStrip
  have h1 : l.dropWhile isSpaceChar <:+ l := List.dropWhile_suffix _
  have h2 : (l.dropWhile isSpaceChar).reverse.dropWhile isSpaceChar <:+
      (l.dropWhile isSpaceChar).reverse := List.dropWhile_suffix _
  have h3 : ((l.dropWhile isSpaceChar).reverse.dropWhile isSpaceChar).reverse <+:
      l.dropWhile isSpaceChar := by
    rw [← List.reverse_reverse (l.dropWhile isSpaceChar)] at h2
    exact List.reverse_suffix.mp (by simpa using h2)
  exact h3.isInfix.trans h1.isInfix

theorem dropWhile_head_not (p : Char → Bool) :
    ∀ (l : List Char) (c : Char), (l.dropWhile p).head? = some c → p c = false := by
  intro l
  induction l with
  | nil => intro c hc; simp at hc
  | cons a as ih =>
    intro c hc
    by_cases hp : p a
    · rw [List.dropWhile_cons_of_pos hp] at hc
      exact ih c hc
    · rw [List.dropWhile_cons_of_neg hp] at hc
      have : a = c := by simpa using hc
      rw [← this]
      exact Bool.eq_false_iff.mpr hp

theorem getLast?_of_suffix {l m : List Char} (h : l <:+ m) (hne : l ≠ []) :
    l.getLast? = m.getLast? := by
  obtain ⟨t, rfl⟩ := h
  rw [List.getLast?_append]
  cases hl : l.getLast? with
  | none => exact absurd (List.getLast?_eq_none_iff.mp hl) hne
  | some c => rfl

/-- The head of a stripped string is not whitespace. -/
theorem pyStrip_head (l : List Char) :
    ∀ c, (pyStrip l).head? = some c → isSpaceChar c = false := by
  intro c hc
  unfold pyStrip at hc
  rw [List.head?_reverse] at hc
  by_cases hne : (l.dropWhile isSpaceChar).reverse.dropWhile isSpaceChar = []
  · rw [hne] at hc
    simp at hc
  · rw [getLast?_of_suffix (List.dropWhile_suffix _) hne] at hc
    rw [List.getLast?_reverse] at hc
    exact dropWhile_head_not isSpaceChar l c hc

/-- The last character of a stripped string is not whitespace. -/
theorem pyStrip_last (l : List Char) :
    ∀ c, (pyStrip l).getLast? = some c → isSpaceChar c = false := by
  intro c hc
  unfold pyStrip at hc
  rw [List.getLast?_reverse] at hc
  exact dropWhile_head_not isSpaceChar _ c hc

/-- Stripping is the identity on strings with non-whitespace endpoints. -/
theorem pyStrip_eq_self (l : List Char)
    (hh : ∀ c, l.head? = some c → isSpaceChar c = false)
    (hl : ∀ c, l.getLast? = some c → isSpaceChar c = false) :
    pyStrip l = l := by
  unfold pyStrip
  have h1 : l.dropWhile isSpaceChar = l := by
    cases l with
    | nil => rfl
    | cons a as =>
      rw [List.dropWhile_cons_of_neg]
      rw [hh a rfl]
      simp
  rw [h1]
  have h2 : l.reverse.dropWhile isSpaceChar = l.reverse := by
    cases hr : l.reverse with
    | nil => rfl
    | cons a as =>
      rw [List.dropWhile_cons_of_neg]
      have : l.getLast? = some a := by
        rw [← List.head?_reverse, hr]
        rfl
      rw [hl a this]
      simp
  rw [h2, List.reverse_reverse]

/-- A substitution whose matcher only fires on a newline head is the
identity on newline-free strings. -/
theorem subAll_id_of_no_newline (m : List Char → Option Nat) (repl : List Char)
    (hm : ∀ (a : Char) (rest : List Char), a ≠ '\n' → m (a :: rest) = none) :
    ∀ (fuel : Nat) (l : List Char), (∀ c ∈ l, c ≠ '\n') →
      subAllFuel m repl fuel l = l := by
  intro fuel
  induction fuel with
  | zero => intro l _; rfl
  | succ n ih =>
    intro l hl
    match l with
    | [] => rfl
    | a :: cs =>
      rw [subAllFuel, hm a cs (hl a (List.mem_cons_self a cs))]
      rw [ih cs (fun c hc => hl c (List.mem_cons_of_mem a hc))]

theorem matchTripleNewline_nonNewline (a : Char) (rest : List Char) (ha : a ≠ '\n') :
    matchTripleNewline (a :: rest) = none := by
  rw [matchTripleNewline, if_neg ha]

theorem matchBoilerplate_nonNewline (a : Char) (rest : List Char) (ha : a ≠ '\n') :
    matchBoilerplate (a :: rest) = none := by
  rw [matchBoilerplate, if_neg ha]

/-- C4 (amended): `clean_text` is idempotent on every input whose
characters all lie in the allow-list of the character-filter pass (the
failure mode of the claim is exactly the deletion of a disallowed
character between two whitespace characters, which merges them into a
run that only collapses on the next pass). -/
theorem clean_text_idempotent_on_allowed (l : List Char)
    (h : ∀ c ∈ l, allowedChar c = true) :
    clean_text (clean_text l) = clean_text l := by
  have ht1chars : ∀ c ∈ subAll matchWsRun [' '] l,
      c = ' ' ∨ (isSpaceChar c = false ∧ c ∈ l) :=
    subAll_ws_chars l.length l le_rfl
  set t1 := subAll matchWsRun [' '] l with ht1def
  have ht1nonl : ∀ c ∈ t1, c ≠ '\n' := by
    intro c hc
    rcases ht1chars c hc with h' | ⟨h1, _⟩
    · rw [h']; decide
    · intro hcn; rw [hcn] at h1; exact absurd h1 (by decide)
  have ht1plain : spacesArePlain t1 := by
    intro c hc hsp
    rcases ht1chars c hc with h' | ⟨h1, _⟩
    · exact h'
    · rw [h1] at hsp; exact absurd hsp (by decide)
  have ht1allowed : ∀ c ∈ t1, allowedChar c = true := by
    intro c hc
    rcases ht1chars c hc with h' | ⟨_, h2⟩
    · rw [h']; decide
    · exact h c h2
  have ht1adj : noAdjacentSpaces t1 := subAll_ws_noAdjacent l.length l le_rfl
  have h2 : subAll matchTripleNewline ['\n', '\n'] t1 = t1 :=
    subAll_id_of_no_newline _ _ matchTripleNewline_nonNewline t1.length t1 ht1nonl
  have h3 : subAll matchBoilerplate ['\n'] t1 = t1 :=
    subAll_id_of_no_newline _ _ matchBoilerplate_nonNewline t1.length t1 ht1nonl
  have h4 : t1.filter allowedChar = t1 := List.filter_eq_self.mpr ht1allowed
  have hclean : clean_text l = pyStrip t1 := by
    show pyStrip ((subAll matchBoilerplate ['\n']
      (subAll matchTripleNewline ['\n', '\n'] t1)).filter allowedChar) = pyStrip t1
    rw [h2, h3, h4]
  have hyinfix : pyStrip t1 <:+: t1 := pyStrip_infix t1
  have hysub : ∀ c ∈ pyStrip t1, c ∈ t1 := fun c hc => hyinfix.subset hc
  have hyplain : spacesArePlain (pyStrip t1) := fun c hc => ht1plain c (hysub c hc)
  have hynonl : ∀ c ∈ pyStrip t1, c ≠ '\n' := fun c hc => ht1nonl c (hysub c hc)
  have hyallowed : ∀ c ∈ pyStrip t1, allowedChar c = true :=
    fun c hc => ht1allowed c (hysub c hc)
  have hyadj : noAdjacentSpaces (pyStrip t1) := List.Chain'.infix ht1adj hyinfix
  have s1 : subAll matchWsRun [' '] (pyStrip t1) = pyStrip t1 :=
    subAll_ws_id (pyStrip t1).length (pyStrip t1) le_rfl hyplain hyadj
  have s2 : subAll matchTripleNewline ['\n', '\n'] (pyStrip t1) = pyStrip t1 :=
    subAll_id_of_no_newline _ _ matchTripleNewline_nonNewline (pyStrip t1).length
      (pyStrip t1) hynonl
  have s3 : subAll matchBoilerplate ['\n'] (pyStrip t1) = pyStrip t1 :=
    subAll_id_of_no_newline _ _ matchBoilerplate_nonNewline (pyStrip t1).length
      (pyStrip t1) hynonl
  have s4 : (pyStrip t1).filter allowedChar = pyStrip t1 :=
    List.filter_eq_self.mpr hyallowed
  have s5 : pyStrip (pyStrip t1) = pyStrip t1 :=
    pyStrip_eq_self (pyStrip t1) (pyStrip_head t1) (pyStrip_last t1)
  calc clean_text (clean_text l)
      = clean_text (pyStrip t1) := by rw [hclean]
    _ = pyStrip ((subAll matchBoilerplate ['\n']
          (subAll matchTripleNewline ['\n', '\n']
            (subAll matchWsRun [' '] (pyStrip t1)))).filter allowedChar) := rfl
    _ = pyStrip t1 := by rw [s1, s2, s3, s4, s5]
    _ = clean_text l := hclean.symm

/-- Witness for the amended C4 at a concrete allow-listed input. -/
theorem clean_text_idempotent_on_allowed_witness :
    (∀ c ∈ ("ab  cd.").toList, allowedChar c = true) ∧
    clean_text (clean_text (("ab  cd.").toList)) = clean_text (("ab  cd.").toList) :=
  ⟨by decide, clean_text_idempotent_on_allowed (("ab  cd.").toList) (by decide)⟩

/-! ### Claim C3: `start_char` strictly increasing on terminating runs

The heart of the argument: when the cursor fails to advance
(`nextStart ≤ start`), the snapping window of the new cursor sees the
same last sentence boundary, so the next cursor value reproduces itself
and the loop never terminates.  Hence in every terminating run the
cursor, and with it the `start_char` of every emitted chunk, strictly
increases. -/

theorem punct_not_space (c : Char) (h : isSentencePunct c = true) :
    isSpaceChar c = false := by
  simp only [isSentencePunct, Bool.or_eq_true, decide_eq_true_eq] at h
  rcases h with (h | h) | h <;> subst h <;> decide

theorem getElem?_lt (l : List Char) (i : Nat) (c : Char) (h : l[i]? = some c) :
    i < l.length := by
  have := List.getElem?_eq_some.mp h
  exact this.1

/-- A match of `[.!?]\s+` starts at position `p` of `l`. -/
def punctSpaceAt (l : List Char) (p : Nat) : Prop :=
  ∃ c1 c2, l[p]? = some c1 ∧ l[p + 1]? = some c2 ∧
    isSentencePunct c1 = true ∧ isSpaceChar c2 = true

/-- The end position of the `[.!?]\s+` match starting at `p` (the
terminator, the first whitespace character, and the rest of the greedy
whitespace run). -/
def matchEndAt (l : List Char) (p : Nat) : Nat :=
  p + 2 + runLen isSpaceChar (l.drop (p + 2))

theorem runLen_index (p : Char → Bool) :
    ∀ (l : List Char) (i : Nat), i < runLen p l →
      ∃ c, l[i]? = some c ∧ p c = true := by
  intro l
  induction l with
  | nil => intro i hi; rw [runLen] at hi; omega
  | cons a as ih =>
    intro i hi
    rw [runLen] at hi
    by_cases hp : p a
    · rw [if_pos hp] at hi
      cases i with
      | zero => exact ⟨a, by simp, hp⟩
      | succ j =>
        obtain ⟨c, hc, hpc⟩ := ih j (by omega)
        exact ⟨c, by simpa using hc, hpc⟩
    · rw [if_neg hp] at hi
      omega

/-- Lower bound on every reported match end. -/
theorem sentenceEndingsAux_lb :
    ∀ (fuel : Nat) (l : List Char) (pos : Nat),
      ∀ e ∈ sentenceEndingsAux fuel l pos, pos + 2 ≤ e := by
  intro fuel
  induction fuel with
  | zero => intro l pos e he; simp [sentenceEndingsAux] at he
  | succ n ih =>
    intro l pos e he
    match l with
    | [] => simp [sentenceEndingsAux] at he
    | [c] => simp [sentenceEndingsAux] at he
    | c1 :: c2 :: rest =>
      rw [sentenceEndingsAux] at he
      by_cases hm : isSentencePunct c1 && isSpaceChar c2
      · rw [if_pos hm] at he
        rcases List.mem_cons.mp he with h | h
        · omega
        · have := ih _ _ e h
          omega
      · rw [if_neg hm] at he
        have := ih _ _ e he
        omega

/-- The last reported match end dominates every reported match end. -/
theorem sentenceEndingsAux_le_getLast :
    ∀ (fuel : Nat) (l : List Char) (pos e last : Nat),
      e ∈ sentenceEndingsAux fuel l pos →
      (sentenceEndingsAux fuel l pos).getLast? = some last →
      e ≤ last := by
  intro fuel
  induction fuel with
  | zero => intro l pos e last he _; simp [sentenceEndingsAux] at he
  | succ n ih =>
    intro l pos e last he hlast
    match l with
    | [] => simp [sentenceEndingsAux] at he
    | [c] => simp [sentenceEndingsAux] at he
    | c1 :: c2 :: rest =>
      rw [sentenceEndingsAux] at he hlast
      by_cases hm : isSentencePunct c1 && isSpaceChar c2
      · rw [if_pos hm] at he hlast
        dsimp only at he hlast
        cases htail : sentenceEndingsAux n
            (rest.drop (runLen isSpaceChar rest))
            (pos + 2 + runLen isSpaceChar rest) with
        | nil =>
          rw [htail] at he hlast
          simp at hlast
          rcases List.mem_cons.mp he with h | h
          · omega
          · simp at h
        | cons t ts =>
          rw [htail] at he hlast
          rw [List.getLast?_cons_cons] at hlast
          have hlastmem : last ∈ t :: ts := List.mem_of_mem_getLast? hlast
          rcases List.mem_cons.mp he with h | h
          · have : pos + 2 + runLen isSpaceChar rest + 2 ≤ last := by
              have := sentenceEndingsAux_lb n
                (rest.drop (runLen isSpaceChar rest))
                (pos + 2 + runLen isSpaceChar rest) last (htail ▸ hlastmem)
              omega
            omega
          · exact ih _ _ e last (htail ▸ h) (htail ▸ hlast)
      · rw [if_neg hm] at he hlast
        exact ih _ _ e last he hlast

theorem getElem?_cons_two (c1 c2 : Char) (rest : List Char) (j : Nat) :
    (c1 :: c2 :: rest)[j + 2]? = rest[j]? := by
  rw [show j + 2 = (j + 1) + 1 by omega]
  rw [List.getElem?_cons_succ, List.getElem?_cons_succ]

theorem drop_cons_two (c1 c2 : Char) (rest : List Char) (j : Nat) :
    (c1 :: c2 :: rest).drop (j + 2) = rest.drop j := by
  rw [show j + 2 = (j + 1) + 1 by omega]
  rw [List.drop_succ_cons, List.drop_succ_cons]

/-- Every reported match end arises from a terminator-plus-whitespace
position. -/
theorem sentenceEndingsAux_spec_of_mem :
    ∀ (fuel : Nat) (l : List Char) (pos e : Nat),
      e ∈ sentenceEndingsAux fuel l pos →
      ∃ p, punctSpaceAt l p ∧ e = pos + matchEndAt l p := by
  intro fuel
  induction fuel with
  | zero => intro l pos e he; simp [sentenceEndingsAux] at he
  | succ n ih =>
    intro l pos e he
    match l with
    | [] => simp [sentenceEndingsAux] at he
    | [c] => simp [sentenceEndingsAux] at he
    | c1 :: c2 :: rest =>
      rw [sentenceEndingsAux] at he
      by_cases hm : isSentencePunct c1 && isSpaceChar c2
      · rw [if_pos hm] at he
        dsimp only at he
        rw [Bool.and_eq_true] at hm
        rcases List.mem_cons.mp he with h | h
        · refine ⟨0, ⟨c1, c2, by simp, by simp, hm.1, hm.2⟩, ?_⟩
          rw [matchEndAt]
          rw [show (0 : Nat) + 2 = 0 + 2 from rfl, drop_cons_two c1 c2 rest 0,
            List.drop_zero]
          omega
        · obtain ⟨p', hps', he'⟩ := ih _ _ e h
          obtain ⟨d1, d2, hd1, hd2, hpd1, hpd2⟩ := hps'
          rw [List.getElem?_drop] at hd1 hd2
          refine ⟨runLen isSpaceChar rest + p' + 2, ⟨d1, d2, ?_, ?_, hpd1, hpd2⟩, ?_⟩
          · rw [getElem?_cons_two]
            exact hd1
          · rw [show runLen isSpaceChar rest + p' + 2 + 1 =
              (runLen isSpaceChar rest + (p' + 1)) + 2 by omega]
            rw [getElem?_cons_two]
            rw [show runLen isSpaceChar rest + (p' + 1) =
              runLen isSpaceChar rest + p' + 1 by omega]
            exact hd2
          · rw [matchEndAt] at he' ⊢
            have hdrop : (c1 :: c2 :: rest).drop
                (runLen isSpaceChar rest + p' + 2 + 2) =
                (rest.drop (runLen isSpaceChar rest)).drop (p' + 2) := by
              rw [List.drop_drop]
              rw [show runLen isSpaceChar rest + p' + 2 + 2 =
                (runLen isSpaceChar rest + (p' + 2)) + 2 by omega]
              rw [drop_cons_two]
            rw [hdrop]
            omega
      · rw [if_neg hm] at he
        obtain ⟨p', hps', he'⟩ := ih _ _ e he
        obtain ⟨d1, d2, hd1, hd2, hpd1, hpd2⟩ := hps'
        refine ⟨p' + 1, ⟨d1, d2, ?_, ?_, hpd1, hpd2⟩, ?_⟩
        · rw [List.getElem?_cons_succ]
          exact hd1
        · rw [List.getElem?_cons_succ]
          exact hd2
        · rw [matchEndAt] at he' ⊢
          have hdrop : (c1 :: c2 :: rest).drop (p' + 1 + 2) =
              (c2 :: rest).drop (p' + 2) := by
            rw [show p' + 1 + 2 = (p' + 2) + 1 by omega, List.drop_succ_cons]
          rw [hdrop]
          omega

/-- Every terminator-plus-whitespace position is reported: the scan never
skips a terminator, because a terminator can never sit inside another
match's whitespace run. -/
theorem sentenceEndingsAux_mem_of_spec :
    ∀ (fuel : Nat) (l : List Char) (pos p : Nat), l.length ≤ fuel →
      punctSpaceAt l p →
      pos + matchEndAt l p ∈ sentenceEndingsAux fuel l pos := by
  intro fuel
  induction fuel with
  | zero =>
    intro l pos p hl hps
    have : l = [] := List.length_eq_zero.mp (Nat.le_zero.mp hl)
    subst this
    obtain ⟨c1, c2, hd1, _, _, _⟩ := hps
    simp at hd1
  | succ n ih =>
    intro l pos p hl hps
    match l with
    | [] =>
      obtain ⟨c1, c2, hd1, _, _, _⟩ := hps
      simp at hd1
    | [c] =>
      obtain ⟨c1, c2, _, hd2, _, _⟩ := hps
      rw [List.getElem?_cons_succ] at hd2
      simp at hd2
    | c1 :: c2 :: rest =>
      rw [sentenceEndingsAux]
      have hlrest : rest.length + 2 ≤ n + 1 := by
        simpa using hl
      obtain ⟨d1, d2, hd1, hd2, hpd1, hpd2⟩ := hps
      by_cases hm : isSentencePunct c1 && isSpaceChar c2
      · rw [if_pos hm]
        dsimp only
        cases p with
        | zero =>
          have hme : matchEndAt (c1 :: c2 :: rest) 0 =
              2 + runLen isSpaceChar rest := by
            rw [matchEndAt, drop_cons_two c1 c2 rest 0, List.drop_zero]
          rw [hme, show pos + (2 + runLen isSpaceChar rest) =
            pos + 2 + runLen isSpaceChar rest by omega]
          exact List.mem_cons_self _ _
        | succ q =>
          have hpk : runLen isSpaceChar rest + 2 ≤ q + 1 := by
            by_contra hcon
            push_neg at hcon
            rcases Nat.lt_or_ge q 1 with hq | hq
            · have hq0 : q = 0 := by omega
              subst hq0
              have hd1c : d1 = c2 := by
                rw [List.getElem?_cons_succ] at hd1
                have h0 : (c2 :: rest)[0]? = some c2 := by simp
                rw [h0] at hd1
                exact (Option.some_inj.mp hd1).symm
              rw [Bool.and_eq_true] at hm
              have hns := punct_not_space d1 hpd1
              rw [hd1c] at hns
              rw [hns] at hm
              exact Bool.noConfusion hm.2
            · have hidx : q - 1 < runLen isSpaceChar rest := by omega
              obtain ⟨c, hc, hcs⟩ := runLen_index isSpaceChar rest (q - 1) hidx
              have hrd1 : rest[q - 1]? = some d1 := by
                rw [show q + 1 = (q - 1) + 2 by omega] at hd1
                rw [getElem?_cons_two] at hd1
                exact hd1
              rw [hrd1] at hc
              have hcd : d1 = c := Option.some_inj.mp hc
              have hns := punct_not_space d1 hpd1
              rw [hcd, hcs] at hns
              exact Bool.noConfusion hns
          obtain ⟨p', hqp⟩ : ∃ p', q + 1 = runLen isSpaceChar rest + 2 + p' :=
            ⟨q + 1 - (runLen isSpaceChar rest + 2), by omega⟩
          have hps' : punctSpaceAt (rest.drop (runLen isSpaceChar rest)) p' := by
            refine ⟨d1, d2, ?_, ?_, hpd1, hpd2⟩
            · rw [List.getElem?_drop]
              rw [show q + 1 = (runLen isSpaceChar rest + p') + 2 by omega] at hd1
              rw [getElem?_cons_two] at hd1
              exact hd1
            · rw [List.getElem?_drop]
              rw [show q + 1 + 1 =
                (runLen isSpaceChar rest + (p' + 1)) + 2 by omega] at hd2
              rw [getElem?_cons_two] at hd2
              exact hd2
          have hfuel : (rest.drop (runLen isSpaceChar rest)).length ≤ n := by
            rw [List.length_drop]
            omega
          have hmem := ih (rest.drop (runLen isSpaceChar rest))
            (pos + 2 + runLen isSpaceChar rest) p' hfuel hps'
          have harith : pos + matchEndAt (c1 :: c2 :: rest) (q + 1) =
              pos + 2 + runLen isSpaceChar rest +
                matchEndAt (rest.drop (runLen isSpaceChar rest)) p' := by
            rw [matchEndAt, matchEndAt]
            have hdrop : (c1 :: c2 :: rest).drop (q + 1 + 2) =
                (rest.drop (runLen isSpaceChar rest)).drop (p' + 2) := by
              rw [List.drop_drop]
              rw [show q + 1 + 2 =
                (runLen isSpaceChar rest + (p' + 2)) + 2 by omega]
              rw [drop_cons_two]
            rw [hdrop]
            omega
          rw [harith]
          exact List.mem_cons_of_mem _ hmem
      · rw [if_neg hm]
        cases p with
        | zero =>
          exfalso
          have h1 : d1 = c1 := by
            have h0 : (c1 :: c2 :: rest)[0]? = some c1 := by simp
            rw [h0] at hd1
            exact (Option.some_inj.mp hd1).symm
          have h2 : d2 = c2 := by
            rw [List.getElem?_cons_succ] at hd2
            have h0 : (c2 :: rest)[0]? = some c2 := by simp
            rw [h0] at hd2
            exact (Option.some_inj.mp hd2).symm
          apply hm
          rw [Bool.and_eq_true]
          exact ⟨h1 ▸ hpd1, h2 ▸ hpd2⟩
        | succ q =>
          have hps' : punctSpaceAt (c2 :: rest) q := by
            refine ⟨d1, d2, ?_, ?_, hpd1, hpd2⟩
            · rw [List.getElem?_cons_succ] at hd1
              exact hd1
            · rw [List.getElem?_cons_succ] at hd2
              exact hd2
          have hfuel : (c2 :: rest).length ≤ n := by
            simp only [List.length_cons]
            omega
          have hmem := ih (c2 :: rest) (pos + 1) q hfuel hps'
          have harith : pos + matchEndAt (c1 :: c2 :: rest) (q + 1) =
              pos + 1 + matchEndAt (c2 :: rest) q := by
            rw [matchEndAt, matchEndAt]
            have hdrop : (c1 :: c2 :: rest).drop (q + 1 + 2) =
                (c2 :: rest).drop (q + 2) := by
              rw [show q + 1 + 2 = (q + 2) + 1 by omega, List.drop_succ_cons]
            rw [hdrop]
            omega
          rw [harith]
          exact hmem

theorem runLen_take (p : Char → Bool) :
    ∀ (n : Nat) (l : List Char), runLen p (l.take n) = min (runLen p l) n := by
  intro n
  induction n with
  | zero => intro l; simp [runLen]
  | succ m ih =>
    intro l
    cases l with
    | nil => simp [runLen]
    | cons a as =>
      rw [List.take_succ_cons, runLen, runLen]
      by_cases hp : p a
      · rw [if_pos hp, if_pos hp, ih as]
        omega
      · rw [if_neg hp, if_neg hp]
        simp

/-- A sentence-boundary match located in the absolute window `[lo, hi)` of
`text`, together with the (possibly window-truncated) end position the
snapping search reports for it. -/
def absMatchEnd (text : List Char) (lo hi e : Nat) : Prop :=
  ∃ p, lo ≤ p ∧ p + 1 < hi ∧ punctSpaceAt text p ∧
    e = p + 2 + min (runLen isSpaceChar (text.drop (p + 2))) (hi - (p + 2))

theorem punctSpaceAt_win (text : List Char) (lo n p : Nat) :
    punctSpaceAt ((text.drop lo).take n) p ↔
      punctSpaceAt text (lo + p) ∧ p + 1 < n := by
  constructor
  · rintro ⟨c1, c2, h1, h2, h3, h4⟩
    have hlt : p + 1 < n := by
      have := getElem?_lt _ _ _ h2
      rw [List.length_take] at this
      omega
    have hp : p < n := by omega
    rw [List.getElem?_take, if_pos hp, List.getElem?_drop] at h1
    rw [List.getElem?_take, if_pos hlt, List.getElem?_drop] at h2
    refine ⟨⟨c1, c2, h1, ?_, h3, h4⟩, hlt⟩
    rw [show lo + p + 1 = lo + (p + 1) by omega]
    exact h2
  · rintro ⟨⟨c1, c2, h1, h2, h3, h4⟩, hlt⟩
    refine ⟨c1, c2, ?_, ?_, h3, h4⟩
    · rw [List.getElem?_take, if_pos (by omega : p < n), List.getElem?_drop]
      exact h1
    · rw [List.getElem?_take, if_pos hlt, List.getElem?_drop]
      rw [show lo + (p + 1) = lo + p + 1 by omega]
      exact h2

theorem matchEndAt_win (text : List Char) (lo n p : Nat) :
    matchEndAt ((text.drop lo).take n) p =
      p + 2 + min (runLen isSpaceChar (text.drop (lo + (p + 2)))) (n - (p + 2)) := by
  rw [matchEndAt]
  rw [List.drop_take, List.drop_drop]
  rw [runLen_take]

/-- Absolute form of the window characterization: the end positions the
snapping search reports for the window `[lo, hi)` are exactly the
`absMatchEnd` positions. -/
theorem sentenceEndings_win_iff (text : List Char) (lo hi e : Nat)
    (hlohi : lo ≤ hi) :
    (∃ erel, erel ∈ sentenceEndings ((text.drop lo).take (hi - lo)) ∧
        e = lo + erel) ↔ absMatchEnd text lo hi e := by
  constructor
  · rintro ⟨erel, hmem, rfl⟩
    obtain ⟨prel, hps, heq⟩ :=
      sentenceEndingsAux_spec_of_mem _ _ _ _ hmem
    rw [punctSpaceAt_win] at hps
    obtain ⟨hpstext, hlt⟩ := hps
    rw [matchEndAt_win] at heq
    refine ⟨lo + prel, by omega, by omega, hpstext, ?_⟩
    rw [show lo + prel + 2 = lo + (prel + 2) by omega]
    rw [show hi - (lo + (prel + 2)) = (hi - lo) - (prel + 2) by omega]
    omega
  · rintro ⟨p, hlop, hphi, hps, heq⟩
    refine ⟨matchEndAt ((text.drop lo).take (hi - lo)) (p - lo), ?_, ?_⟩
    · have hps' : punctSpaceAt ((text.drop lo).take (hi - lo)) (p - lo) := by
        rw [punctSpaceAt_win]
        constructor
        · rw [show lo + (p - lo) = p by omega]
          exact hps
        · omega
      have hmem := sentenceEndingsAux_mem_of_spec _ _ 0 _ le_rfl hps'
      rw [sentenceEndings]
      simpa using hmem
    · rw [matchEndAt_win]
      rw [show lo + (p - lo + 2) = p + 2 by omega]
      rw [show (hi - lo) - (p - lo + 2) = hi - (p + 2) by omega]
      omega

/-- Left edge of the snapping window (`search_start`). -/
def winLo (cfg : ChunkCfg) (start : Nat) : Nat :=
  max start (start + cfg.size - 100)

/-- Right edge (exclusive) of the snapping window (`end + 100`). -/
def winHi (cfg : ChunkCfg) (start : Nat) : Nat :=
  start + cfg.size + 100

theorem winLo_le_winHi (cfg : ChunkCfg) (start : Nat) :
    winLo cfg start ≤ winHi cfg start := by
  rw [winLo, winHi]
  apply max_le <;> omega

theorem snapCandidate_eq_form (cfg : ChunkCfg) (text : List Char) (start : Nat) :
    snapCandidate cfg text start =
      (sentenceEndings ((text.drop (winLo cfg start)).take
        (winHi cfg start - winLo cfg start))).getLast?.map (winLo cfg start + ·) := rfl

/-- What a successful snap search reports: an `absMatchEnd` of the window
that dominates all others. -/
theorem snapCandidate_absMatchEnd (cfg : ChunkCfg) (text : List Char)
    (s E : Nat) (h : snapCandidate cfg text s = some E) :
    absMatchEnd text (winLo cfg s) (winHi cfg s) E ∧
    ∀ F, absMatchEnd text (winLo cfg s) (winHi cfg s) F → F ≤ E := by
  rw [snapCandidate_eq_form] at h
  cases hlast : (sentenceEndings ((text.drop (winLo cfg s)).take
      (winHi cfg s - winLo cfg s))).getLast? with
  | none => rw [hlast] at h; simp at h
  | some last =>
    rw [hlast] at h
    simp only [Option.map_some', Option.some_inj] at h
    constructor
    · rw [← sentenceEndings_win_iff _ _ _ _ (winLo_le_winHi cfg s)]
      exact ⟨last, List.mem_of_mem_getLast? hlast, h.symm⟩
    · intro F hF
      rw [← sentenceEndings_win_iff _ _ _ _ (winLo_le_winHi cfg s)] at hF
      obtain ⟨frel, hfmem, rfl⟩ := hF
      have := sentenceEndingsAux_le_getLast _ _ _ _ _ hfmem hlast
      omega

/-- Conversely, a dominating `absMatchEnd` of the window is exactly what
the snap search reports. -/
theorem snapCandidate_eq_of (cfg : ChunkCfg) (text : List Char) (s E : Nat)
    (hmem : absMatchEnd text (winLo cfg s) (winHi cfg s) E)
    (hmax : ∀ F, absMatchEnd text (winLo cfg s) (winHi cfg s) F → F ≤ E) :
    snapCandidate cfg text s = some E := by
  rw [snapCandidate_eq_form]
  have hmem' := (sentenceEndings_win_iff text (winLo cfg s) (winHi cfg s) E
    (winLo_le_winHi cfg s)).mpr hmem
  obtain ⟨erel, hemem, heq⟩ := hmem'
  cases hlast : (sentenceEndings ((text.drop (winLo cfg s)).take
      (winHi cfg s - winLo cfg s))).getLast? with
  | none =>
    rw [List.getLast?_eq_none_iff.mp hlast] at hemem
    simp at hemem
  | some last =>
    simp only [Option.map_some', Option.some_inj]
    have h1 := sentenceEndingsAux_le_getLast _ _ _ _ _ hemem hlast
    have h2 : winLo cfg s + last ≤ E := by
      apply hmax
      rw [← sentenceEndings_win_iff _ _ _ _ (winLo_le_winHi cfg s)]
      exact ⟨last, List.mem_of_mem_getLast? hlast, rfl⟩
    omega

/-- Shrinking the window (both edges move left) preserves a match end
that still lies strictly inside the smaller window: the reported end was
not window-truncated, so it is reproduced verbatim. -/
theorem absMatchEnd_shift (text : List Char) (lo hi lo' hi' E : Nat)
    (_hlo : lo' ≤ lo) (hhi : hi' ≤ hi)
    (hmem : absMatchEnd text lo hi E) (hEhi' : E < hi') :
    absMatchEnd text lo' hi' E := by
  obtain ⟨p, hlop, hphi, hps, heq⟩ := hmem
  have hmin : min (runLen isSpaceChar (text.drop (p + 2))) (hi - (p + 2)) =
      runLen isSpaceChar (text.drop (p + 2)) := by
    rcases Nat.le_total (runLen isSpaceChar (text.drop (p + 2))) (hi - (p + 2))
      with h | h
    · exact min_eq_left h
    · exfalso
      rw [min_eq_right h] at heq
      omega
  rw [hmin] at heq
  refine ⟨p, by omega, by omega, hps, ?_⟩
  rw [min_eq_left (by omega : runLen isSpaceChar (text.drop (p + 2)) ≤ hi' - (p + 2))]
  exact heq

/-- Every match end of the left-shifted window is dominated by the
dominating end of the original window: ends inherited from the original
window only shrink by extra truncation, and ends contributed by the
newly exposed left margin stop at the original match's terminator. -/
theorem absMatchEnd_bound (text : List Char) (lo hi lo' hi' E F : Nat)
    (_hlo : lo' ≤ lo) (hhi : hi' ≤ hi)
    (hmemE : absMatchEnd text lo hi E)
    (hmaxE : ∀ G, absMatchEnd text lo hi G → G ≤ E)
    (hF : absMatchEnd text lo' hi' F) : F ≤ E := by
  obtain ⟨p, hlop', hphi', hps', heqF⟩ := hF
  rcases Nat.lt_or_ge p lo with hplo | hplo
  · obtain ⟨p0, hlop0, hp0hi, hps0, heqE⟩ := hmemE
    obtain ⟨e1, e2, he1, he2, hpe1, hpe2⟩ := hps0
    obtain ⟨f1, f2, hf1, hf2, hpf1, hpf2⟩ := hps'
    have hp0p : p + 2 ≤ p0 := by
      by_contra hcon
      push_neg at hcon
      have hp01 : p0 = p + 1 := by omega
      rw [hp01] at he1
      rw [he1] at hf2
      have hef : e1 = f2 := Option.some_inj.mp hf2
      have hns := punct_not_space e1 hpe1
      rw [hef, hpf2] at hns
      exact Bool.noConfusion hns
    have hrun : runLen isSpaceChar (text.drop (p + 2)) ≤ p0 - (p + 2) := by
      by_contra hcon
      push_neg at hcon
      obtain ⟨c, hc, hcs⟩ :=
        runLen_index isSpaceChar (text.drop (p + 2)) (p0 - (p + 2)) hcon
      rw [List.getElem?_drop] at hc
      rw [show p + 2 + (p0 - (p + 2)) = p0 by omega] at hc
      rw [he1] at hc
      have hec : e1 = c := Option.some_inj.mp hc
      have hns := punct_not_space e1 hpe1
      rw [hec, hcs] at hns
      exact Bool.noConfusion hns
    have hmin := min_le_left (runLen isSpaceChar (text.drop (p + 2))) (hi' - (p + 2))
    omega
  · have hG : absMatchEnd text lo hi (p + 2 +
        min (runLen isSpaceChar (text.drop (p + 2))) (hi - (p + 2))) :=
      ⟨p, hplo, by omega, hps', rfl⟩
    have h1 := hmaxE _ hG
    have h2 : min (runLen isSpaceChar (text.drop (p + 2))) (hi' - (p + 2)) ≤
        min (runLen isSpaceChar (text.drop (p + 2))) (hi - (p + 2)) :=
      min_le_min le_rfl (by omega)
    omega

theorem nextStart_pos (cfg : ChunkCfg) (text : List Char) (s : Nat) :
    1 ≤ nextStart cfg text s := by
  rw [nextStart]
  split
  · exact le_rfl
  · omega

theorem computeEnd_of_snap (cfg : ChunkCfg) (text : List Char) (s E : Nat)
    (h1 : s + cfg.size < text.length) (h2 : snapCandidate cfg text s = some E) :
    computeEnd cfg text s = E := by
  rw [computeEnd, if_pos h1, h2]

theorem nextStart_gt_of_not_snap (cfg : ChunkCfg) (text : List Char) (s : Nat)
    (hov : cfg.overlap < cfg.size)
    (h : ¬ (s + cfg.size < text.length ∧ (snapCandidate cfg text s).isSome = true)) :
    s < nextStart cfg text s := by
  have he : computeEnd cfg text s = s + cfg.size := by
    rw [computeEnd]
    by_cases h1 : s + cfg.size < text.length
    · rw [if_pos h1]
      cases hsc : snapCandidate cfg text s with
      | none => rfl
      | some e => exact absurd ⟨h1, by rw [hsc]; rfl⟩ h
    · rw [if_neg h1]
  rw [nextStart, he]
  rw [if_neg (by omega)]
  omega

/-- The key non-progress lemma: once the cursor is positive, an iteration
that fails to advance it reproduces itself forever.  The new, shifted
snapping window reports exactly the same (absolute) sentence boundary,
so the next cursor value is computed from the same `end`. -/
theorem nextStart_fixed (cfg : ChunkCfg) (text : List Char) (s : Nat)
    (hov : cfg.overlap < cfg.size)
    (hle : nextStart cfg text s ≤ s) :
    nextStart cfg text (nextStart cfg text s) = nextStart cfg text s := by
  by_cases heq : nextStart cfg text s = s
  · rw [heq]
    exact heq
  · have hlt : nextStart cfg text s < s := lt_of_le_of_ne hle heq
    by_cases hsnap : s + cfg.size < text.length ∧ (snapCandidate cfg text s).isSome = true
    · obtain ⟨hlen, hsome⟩ := hsnap
      obtain ⟨E, hE⟩ := Option.isSome_iff_exists.mp hsome
      have hce : computeEnd cfg text s = E := computeEnd_of_snap cfg text s E hlen hE
      have hsdef : nextStart cfg text s =
          if E ≤ cfg.overlap then 1 else E - cfg.overlap := by
        rw [nextStart, hce]
      have hEbound : E ≤ cfg.overlap + nextStart cfg text s := by
        rw [hsdef]
        split <;> omega
      have hEhi' : E < winHi cfg (nextStart cfg text s) := by
        rw [winHi]
        omega
      have hspec := snapCandidate_absMatchEnd cfg text s E hE
      have hlo' : winLo cfg (nextStart cfg text s) ≤ winLo cfg s := by
        rw [winLo, winLo]
        exact max_le_max (by omega) (by omega)
      have hhi' : winHi cfg (nextStart cfg text s) ≤ winHi cfg s := by
        rw [winHi, winHi]
        omega
      have hmem' : absMatchEnd text (winLo cfg (nextStart cfg text s))
          (winHi cfg (nextStart cfg text s)) E :=
        absMatchEnd_shift text _ _ _ _ E hlo' hhi' hspec.1 hEhi'
      have hmax' : ∀ F, absMatchEnd text (winLo cfg (nextStart cfg text s))
          (winHi cfg (nextStart cfg text s)) F → F ≤ E :=
        fun F hF => absMatchEnd_bound text _ _ _ _ E F hlo' hhi'
          hspec.1 hspec.2 hF
      have hsnap' : snapCandidate cfg text (nextStart cfg text s) = some E :=
        snapCandidate_eq_of cfg text _ E hmem' hmax'
      have hlen' : nextStart cfg text s + cfg.size < text.length := by omega
      have hce' : computeEnd cfg text (nextStart cfg text s) = E :=
        computeEnd_of_snap cfg text _ E hlen' hsnap'
      rw [nextStart, hce']
      exact hsdef.symm
    · exact absurd hlt (by
        have := nextStart_gt_of_not_snap cfg text s hov hsnap
        omega)

/-- In every terminating run of the chunking loop, all emitted chunks
start at or after the entry cursor, and their `start_char` values
strictly increase in emission order. -/
theorem chunkLoopFuel_starts (cfg : ChunkCfg) (source text : List Char)
    (hov : cfg.overlap < cfg.size) :
    ∀ (fuel s chunkId : Nat) (res : List DocumentChunk),
      chunkLoopFuel cfg source text fuel s chunkId = some res →
      (∀ c ∈ res, s ≤ c.metadata.start_char) ∧
      res.Pairwise (fun a b => a.metadata.start_char < b.metadata.start_char) := by
  intro fuel
  induction fuel with
  | zero =>
    intro s chunkId res hres
    rw [chunkLoopFuel] at hres
    split at hres
    · exact Option.noConfusion hres
    · have : res = [] := (Option.some_inj.mp hres).symm
      subst this
      constructor <;> simp
  | succ n ih =>
    intro s chunkId res hres
    rw [chunkLoopFuel] at hres
    by_cases hlt : s < text.length
    · rw [if_pos hlt] at hres
      dsimp only at hres
      have hprog : s < nextStart cfg text s := by
        by_contra hcon
        push_neg at hcon
        have hfix := nextStart_fixed cfg text s hov hcon
        have hstuck := chunkLoopFuel_stuck cfg source text (nextStart cfg text s)
          (by omega) hfix
        split at hres
        · rw [hstuck] at hres
          simp at hres
        · rw [hstuck] at hres
          simp at hres
      split at hres
      · cases hrec : chunkLoopFuel cfg source text n (nextStart cfg text s)
            (chunkId + 1) with
        | none =>
          rw [hrec] at hres
          simp at hres
        | some rest =>
          rw [hrec] at hres
          simp only [Option.map_some', Option.some_inj] at hres
          subst hres
          obtain ⟨hb, hp⟩ := ih (nextStart cfg text s) (chunkId + 1) rest hrec
          constructor
          · intro c hc
            rcases List.mem_cons.mp hc with h | h
            · rw [h]
            · exact le_of_lt (lt_of_lt_of_le hprog (hb c h))
          · rw [List.pairwise_cons]
            exact ⟨fun b hbmem => lt_of_lt_of_le hprog (hb b hbmem), hp⟩
      · obtain ⟨hb, hp⟩ := ih (nextStart cfg text s) chunkId res hres
        exact ⟨fun c hc => le_of_lt (lt_of_lt_of_le hprog (hb c hc)), hp⟩
    · rw [if_neg hlt] at hres
      have : res = [] := (Option.some_inj.mp hres).symm
      subst this
      constructor <;> simp

/-- C3: for every raw text and every configuration with
`chunk_overlap < chunk_size`, whenever `chunk_text` returns a chunk
sequence (i.e. the loop terminates within the given fuel), the
`start_char` metadata values of the returned chunks are strictly
increasing in emission order (and hence the offsets are monotonically
non-decreasing across the ordered chunk sequence). -/
theorem chunk_text_start_char_increasing (cfg : ChunkCfg)
    (source raw : List Char) (fuel : Nat) (res : List DocumentChunk)
    (hov : cfg.overlap < cfg.size)
    (hres : chunk_text cfg source raw fuel = some res) :
    res.Pairwise (fun a b => a.metadata.start_char < b.metadata.start_char) :=
  (chunkLoopFuel_starts cfg source (clean_text raw) hov fuel 0 0 res hres).2

/-- The chunk list produced for the witness scenario. -/
def c3Res : List DocumentChunk :=
  [⟨("Hello world is nice").toList, ⟨("doc").toList, 0, 0, 20, 19⟩, 0⟩,
   ⟨("nice").toList, ⟨("doc").toList, 1, 15, 35, 4⟩, 1⟩]

/-- Witness for C3 at a concrete terminating run. -/
theorem chunk_text_start_char_increasing_witness :
    (⟨20, 5, 3⟩ : ChunkCfg).overlap < (⟨20, 5, 3⟩ : ChunkCfg).size ∧
    chunk_text ⟨20, 5, 3⟩ (("doc").toList) (("Hello world is nice").toList) 10 =
      some c3Res ∧
    c3Res.Pairwise (fun a b => a.metadata.start_char < b.metadata.start_char) :=
  ⟨by decide, by decide,
    chunk_text_start_char_increasing ⟨20, 5, 3⟩ (("doc").toList)
      (("Hello world is nice").toList) 10 c3Res (by decide) (by decide)⟩
